import Mathlib

/-!
Verification of the core algorithms of the shroom-setup-unpacker repository.

The Rust sources are shallowly embedded: byte streams become `List Nat`
(every element is a byte value below 256 where the semantics needs it),
machine integers become `Nat` with explicit masking by `&&& 0xFFFFFFFF`
and friends, and fallible operations return `Option` or `Except`.
Each definition is translated directly from the function of the same name
in the repository; spec-side definitions used for comparison are named
with a `spec` or `claim` prefix.
-/

/-! ## Byte-level helpers -/

/-- Bitwise NOT on a `u8` value (`!b` in Rust). -/
def u8not (b : Nat) : Nat := b ^^^ 0xFF

/-- `b.rotate_right(4)` on a `u8` value. -/
def ror4 (b : Nat) : Nat := (b >>> 4) ||| ((b &&& 0xF) <<< 4)

/-- Reading a little-endian `u32` from a byte stream, as `binrw`'s
`u32::read_options` does in `src/patch.rs`. -/
def readU32LE : List Nat → Option (Nat × List Nat)
  | b0 :: b1 :: b2 :: b3 :: rest =>
      some (b0 + 256 * b1 + 65536 * b2 + 16777216 * b3, rest)
  | _ => none

/-- The little-endian byte serialisation of a `u32` value. -/
def u32le (v : Nat) : List Nat :=
  [v &&& 0xFF, (v >>> 8) &&& 0xFF, (v >>> 16) &&& 0xFF, (v >>> 24) &&& 0xFF]

theorem and_255_eq_mod (x : Nat) : x &&& 255 = x % 256 := by
  simpa using Nat.and_pow_two_sub_one_eq_mod x 8

theorem shiftRight_eq_div (x k : Nat) : x >>> k = x / 2 ^ k :=
  Nat.shiftRight_eq_div_pow x k

theorem readU32LE_u32le (v : Nat) (hv : v < 2 ^ 32) (r : List Nat) :
    readU32LE (u32le v ++ r) = some (v, r) := by
  simp only [u32le, readU32LE, List.cons_append, List.nil_append,
    and_255_eq_mod, shiftRight_eq_div]
  refine congrArg some (Prod.ext ?_ rfl)
  show v % 256 + 256 * (v / 2 ^ 8 % 256) + 65536 * (v / 2 ^ 16 % 256) +
      16777216 * (v / 2 ^ 24 % 256) = v
  norm_num
  omega

/-! ## CRC32 engine (`src/patch.rs`, `CRC_32_PATCHER` / `wz_patch_calc_crc`)

The `crc` crate is table driven: for `width 32, refin false` the table entry
for index `i` is obtained by eight shift/xor steps on `i << 24`, and each
input byte `b` updates the state `st` to
`(st << 8) ^ table[((st >> 24) ^ b) & 0xFF]`.  The parameters of
`CRC_32_PATCHER` are polynomial `0x04C11DB7`, init `0`, no reflection,
xorout `0`. -/

def CRC_POLY : Nat := 0x04C11DB7
def CRC_INIT : Nat := 0
def CRC_XOROUT : Nat := 0

/-- One polynomial-division step on a 32-bit CRC register. -/
def crcStep (x : Nat) : Nat :=
  if x &&& 0x80000000 = 0 then (x <<< 1) &&& 0xFFFFFFFF
  else ((x <<< 1) ^^^ CRC_POLY) &&& 0xFFFFFFFF

/-- The CRC table entry for byte index `i` (eight steps on `i << 24`). -/
def crcTable (i : Nat) : Nat :=
  crcStep (crcStep (crcStep (crcStep (crcStep (crcStep (crcStep (crcStep
    ((i &&& 0xFF) <<< 24))))))))

/-- Feeding one byte into the streaming digest. -/
def Digest.updateByte (st b : Nat) : Nat :=
  ((st <<< 8) &&& 0xFFFFFFFF) ^^^ crcTable ((st >>> 24) ^^^ b)

/-- `digest.update(bytes)` from the `crc` crate. -/
def Digest.update (st : Nat) (bs : List Nat) : Nat :=
  bs.foldl Digest.updateByte st

/-- `digest.finalize()`; with `xorout = 0` this returns the register. -/
def Digest.finalize (st : Nat) : Nat := st ^^^ CRC_XOROUT

/-- `wz_patch_calc_crc`: the read loop feeds the reader's chunks into one
digest and finalises; the chunking produced by the 4096-byte buffer is the
`reads` argument. -/
def wz_patch_calc_crc (reads : List (List Nat)) : Nat :=
  Digest.finalize (reads.foldl Digest.update CRC_INIT)

/-- The CRC of a whole byte string in one shot. -/
def crcOfBytes (bs : List Nat) : Nat :=
  Digest.finalize (Digest.update CRC_INIT bs)

theorem Digest.update_append (st : Nat) (a b : List Nat) :
    Digest.update st (a ++ b) = Digest.update (Digest.update st a) b :=
  List.foldl_append ..

theorem foldl_update_join (st : Nat) (chunks : List (List Nat)) :
    chunks.foldl Digest.update st = Digest.update st chunks.flatten := by
  induction chunks generalizing st with
  | nil => rfl
  | cons c cs ih =>
      simp only [List.foldl_cons, List.flatten_cons, ih, Digest.update_append]

/-- Claim C3 counterexample: the engine digests the 9 ASCII bytes of
`"123456789"` to `0x89A1897F`, not to `0x0CE94872`.  The value
`0x0CE94872` only appears as the (incorrect) `check` metadata field of the
`CRC_32_PATCHER` algorithm description and is never produced by the
engine. -/
theorem c3_counterexample :
    ¬ (wz_patch_calc_crc [[49, 50, 51, 52, 53, 54, 55, 56, 57]] = 0x0CE94872) := by
  decide

/-- Claim C3 (amended): the CRC engine with polynomial `0x04C11DB7`, init
`0`, no reflection and xorout `0` digests `"123456789"` to `0x89A1897F`,
and for every byte string, streaming it through `digest.update` in
arbitrary chunkings and finalising equals the one-shot CRC. -/
theorem c3_amended :
    wz_patch_calc_crc [[49, 50, 51, 52, 53, 54, 55, 56, 57]] = 0x89A1897F ∧
    ∀ chunks : List (List Nat),
      wz_patch_calc_crc chunks = crcOfBytes chunks.flatten := by
  refine ⟨by decide, fun chunks => ?_⟩
  unfold wz_patch_calc_crc crcOfBytes
  rw [foldl_update_join]

/-! ## InstallShield obfuscation (`src/setup/is.rs`) -/

/-- The repeating filename-key constant from `gen_key`. -/
def MAGIC : List Nat := [0x13, 0x35, 0x86, 0x07]

def gen_key_go (i : Nat) : List Nat → List Nat
  | [] => []
  | b :: r => (b ^^^ MAGIC.getD (i % 4) 0) :: gen_key_go (i + 1) r

/-- `gen_key`: XOR each filename byte with `MAGIC[i % 4]`. -/
def gen_key (key : List Nat) : List Nat := gen_key_go 0 key

/-- `decode_byte`: `!(k ^ b.rotate_right(4))`. -/
def decode_byte (b k : Nat) : Nat := u8not (k ^^^ ror4 b)

/-- Claim C9 counterexample: decoding ciphertext byte `0x5B` with key byte
`0x6B` yields `0x21`, not `0x41` as the claim states. -/
theorem c9_counterexample : ¬ (decode_byte 0x5B 0x6B = 0x41) := by decide

/-- Claim C9 (amended): filename `"x"` derives the single key byte
`0x78 XOR 0x13 = 0x6B`; the ciphertext byte that decodes to `0x41` under
that key is `0x5D` (while `0x5B` decodes to `0x21`). -/
theorem c9_amended :
    gen_key [0x78] = [0x6B] ∧ decode_byte 0x5D 0x6B = 0x41 ∧
      decode_byte 0x5B 0x6B = 0x21 := by decide

/-! ## WzPatch block decoder (`src/patch.rs`, `WzPatchBlock::read_options`) -/

inductive WzPatchBlock where
  | Repeat (byte len : Nat)
  | NewBlock (len : Nat)
  | OldBlock (len offset : Nat)
  | End

deriving instance DecidableEq for WzPatchBlock

/-- `WzPatchBlock::read_options`: read a little-endian `u32` and dispatch on
its top nibble, reading a second `u32` for `OldBlock`. -/
def WzPatchBlock.read_options (l : List Nat) : Option (WzPatchBlock × List Nat) :=
  match readU32LE l with
  | none => none
  | some (value, rest) =>
    if value >>> 28 = 0x8 then some (.NewBlock (value &&& 0xFFFFFFF), rest)
    else if value >>> 28 = 0xC then
      some (.Repeat (value &&& 0xFF) ((value >>> 8) &&& 0xFFFFF), rest)
    else if value = 0 then some (.End, rest)
    else
      match readU32LE rest with
      | none => none
      | some (offset, rest2) =>
          some (.OldBlock (value &&& 0xFFFFFFF) offset, rest2)

/-- Claim C1: for every 32-bit value `v` read from the stream the decoder
returns `End` when `v = 0`, `NewBlock` when `v >>> 28 = 0x8`, `Repeat` when
`v >>> 28 = 0xC`, and otherwise `OldBlock` with the next `u32` as offset;
in particular `0xC0000241` decodes to `Repeat {byte 0x41, len 2}`. -/
theorem c1_block_decode (v : Nat) (rest : List Nat) (hv : v < 2 ^ 32) :
    (v = 0 → WzPatchBlock.read_options (u32le v ++ rest) = some (.End, rest)) ∧
    (v >>> 28 = 0x8 →
      WzPatchBlock.read_options (u32le v ++ rest) =
        some (.NewBlock (v &&& 0xFFFFFFF), rest)) ∧
    (v >>> 28 = 0xC →
      WzPatchBlock.read_options (u32le v ++ rest) =
        some (.Repeat (v &&& 0xFF) ((v >>> 8) &&& 0xFFFFF), rest)) ∧
    (v ≠ 0 → v >>> 28 ≠ 0x8 → v >>> 28 ≠ 0xC →
      ∀ w rest2, w < 2 ^ 32 → rest = u32le w ++ rest2 →
        WzPatchBlock.read_options (u32le v ++ rest) =
          some (.OldBlock (v &&& 0xFFFFFFF) w, rest2)) ∧
    WzPatchBlock.read_options [0x41, 0x02, 0x00, 0xC0] =
      some (.Repeat 0x41 2, []) := by
  refine ⟨?_, ?_, ?_, ?_, by decide⟩
  · rintro rfl
    simp [WzPatchBlock.read_options, readU32LE_u32le 0 (by norm_num) rest]
  · intro h8
    simp [WzPatchBlock.read_options, readU32LE_u32le v hv rest, h8]
  · intro hC
    have : ¬ (v >>> 28 = 0x8) := by rw [hC]; decide
    simp [WzPatchBlock.read_options, readU32LE_u32le v hv rest, this, hC]
  · intro h0 h8 hC w rest2 hw hrest
    subst hrest
    simp [WzPatchBlock.read_options, readU32LE_u32le v hv _, h8, hC, h0,
      readU32LE_u32le w hw rest2]

/-- Claim C1 witness: the theorem applied to the concrete value
`0xC0000241` with an empty remainder. -/
theorem c1_block_decode_witness :
    (0xC0000241 : Nat) >>> 28 = 0xC ∧
      WzPatchBlock.read_options (u32le 0xC0000241 ++ []) =
        some (.Repeat 0x41 2, []) := by
  refine ⟨by decide, ?_⟩
  exact (c1_block_decode 0xC0000241 [] (by norm_num)).2.2.1 (by decide)

/-! ## WzPatch applier, one `Modify` transaction (`src/patcher.rs`)

`WzPatcher::set_current` opens the old file, rewinds, verifies its CRC
against `old_checksum` and only then creates the new output file with a
fresh digest.  The block events write bytes through `NewFile::write_from`,
which feeds every written byte into the digest, and
`WzPatcher::handle_mod_end` compares the finalised digest with the
record's `new_checksum`.  The filesystem side effects that matter to the
claim (opening the old file, creating the new file) are recorded as an
action trace. -/

inductive ModEvent where
  | Repeat (byte len : Nat)
  | NewBlock (data : List Nat)
  | OldBlock (offset len : Nat)

deriving instance DecidableEq for ModEvent

inductive FsAction where
  | openOld
  | createNew

deriving instance DecidableEq for FsAction

inductive PatchErr where
  | sourceCrc
  | targetCrc

deriving instance DecidableEq for PatchErr

/-- The state of `NewFile`: the bytes written to the output file and the
running digest register. -/
structure NewFileSt where
  written : List Nat
  digest : Nat

deriving instance DecidableEq for NewFileSt

/-- `NewFile::write_from`: append the bytes to the file and feed them into
the digest (the 4096-byte chunking of the copy loop does not change the
digest by `Digest.update_append`). -/
def NewFileSt.writeBytes (f : NewFileSt) (bs : List Nat) : NewFileSt :=
  { written := f.written ++ bs, digest := Digest.update f.digest bs }

/-- The bytes a modify event writes: `handle_mod_repeat` writes
`io::repeat(byte).take(len)`, `handle_mod_new_block` writes the literal
data stream, `handle_mod_old_block` writes `old.seek(offset).take(len)`. -/
def eventBytes (old : List Nat) : ModEvent → List Nat
  | .Repeat b len => List.replicate len b
  | .NewBlock data => data
  | .OldBlock offset len => (old.drop offset).take len

def applyEvent (old : List Nat) (st : NewFileSt) (e : ModEvent) : NewFileSt :=
  st.writeBytes (eventBytes old e)

/-- `WzPatcher::set_current`: open the old file and verify its CRC before
creating the output file; a mismatch aborts with no output file created. -/
def set_current (old : List Nat) (old_checksum : Nat) :
    Except PatchErr NewFileSt × List FsAction :=
  if crcOfBytes old = old_checksum then
    (.ok { written := [], digest := CRC_INIT }, [.openOld, .createNew])
  else (.error .sourceCrc, [.openOld])

/-- `WzPatcher::handle_mod_end`: compare the finalised digest with the
expected checksum. -/
def handle_mod_end (st : NewFileSt) (checksum : Nat) :
    Except PatchErr (List Nat) :=
  if Digest.finalize st.digest = checksum then .ok st.written
  else .error .targetCrc

/-- One whole `Modify` transaction of `WzPatcher`:
`handle_modify` (= `set_current`), the block events, `handle_mod_end`. -/
def runModify (old : List Nat) (old_crc new_crc : Nat)
    (events : List ModEvent) : Except PatchErr (List Nat) × List FsAction :=
  match set_current old old_crc with
  | (.error e, acts) => (.error e, acts)
  | (.ok st, acts) =>
      (handle_mod_end (events.foldl (applyEvent old) st) new_crc, acts)

/-- The bytes the event sequence writes to the new file, in order. -/
def modifyOutput (old : List Nat) (events : List ModEvent) : List Nat :=
  (events.map (eventBytes old)).flatten

theorem foldl_applyEvent (old : List Nat) (events : List ModEvent)
    (st : NewFileSt) :
    events.foldl (applyEvent old) st =
      { written := st.written ++ modifyOutput old events,
        digest := Digest.update st.digest (modifyOutput old events) } := by
  induction events generalizing st with
  | nil =>
      cases st
      simp [modifyOutput, Digest.update]
  | cons e es ih =>
      simp only [List.foldl_cons, ih, modifyOutput, List.map_cons,
        List.flatten_cons, applyEvent, NewFileSt.writeBytes,
        Digest.update_append, List.append_assoc]

/-- Claim C2: for every `Modify` record, the old file's CRC is compared to
`old_crc` before any output file is created and a mismatch fails the
transaction; every byte subsequently written (by `Repeat`, `NewBlock` or
`OldBlock` events) is fed into a fresh digest; and `handle_mod_end` fails
with a checksum-mismatch error exactly when the finalised digest differs
from `new_crc`. -/
theorem c2_modify_transaction (old : List Nat) (old_crc new_crc : Nat)
    (events : List ModEvent) :
    (crcOfBytes old ≠ old_crc →
      runModify old old_crc new_crc events = (.error .sourceCrc, [.openOld]) ∧
        FsAction.createNew ∉ [FsAction.openOld]) ∧
    (crcOfBytes old = old_crc →
      runModify old old_crc new_crc events =
        (if crcOfBytes (modifyOutput old events) = new_crc
          then .ok (modifyOutput old events)
          else .error .targetCrc, [.openOld, .createNew])) := by
  constructor
  · intro hne
    refine ⟨?_, by decide⟩
    simp [runModify, set_current, hne]
  · intro heq
    have hsc : set_current old old_crc =
        (.ok { written := [], digest := CRC_INIT }, [.openOld, .createNew]) := by
      simp [set_current, heq]
    simp only [runModify, hsc]
    rw [foldl_applyEvent]
    simp [handle_mod_end, crcOfBytes]

/-- Claim C2 witness: the empty old file with matching checksum `0` and no
block events produces the empty new file with checksum `0`. -/
theorem c2_witness :
    crcOfBytes [] = 0 ∧ runModify [] 0 0 [] = (.ok [], [.openOld, .createNew]) := by
  refine ⟨by decide, ?_⟩
  have h := (c2_modify_transaction [] 0 0 []).2 (by decide)
  simpa [modifyOutput, crcOfBytes, Digest.update, Digest.finalize] using h

/-! ## InstallShield entry de-obfuscation (`src/setup/is.rs`)

`decode_data` decodes a buffer slice with key index `(i + offset) % key.len()`
for position `i` within the slice; `EntryReader::read` decodes the freshly
read buffer in 1024-byte blocks, passing the same `dec_offset =
self.offset % 1024` for every block and for the sub-1024 tail, and then
advances `self.offset` by the number of bytes read. -/

def decode_data_go (key : List Nat) (offset : Nat) (i : Nat) :
    List Nat → List Nat
  | [] => []
  | b :: r =>
      decode_byte b (key.getD ((i + offset) % key.length) 0) ::
        decode_data_go key offset (i + 1) r

/-- `decode_data(data, key, offset)`. -/
def decode_data (data key : List Nat) (offset : Nat) : List Nat :=
  decode_data_go key offset 0 data

/-- The block loop of `EntryReader::read`: `nblocks` full 1024-byte blocks
are decoded with the same `dec_offset`, then the remaining tail is decoded
with that same `dec_offset`. -/
def readDecodeBlocks (key : List Nat) (decOff : Nat) :
    Nat → List Nat → List Nat
  | 0, chunk => decode_data chunk key decOff
  | n + 1, chunk =>
      decode_data (chunk.take 1024) key decOff ++
        readDecodeBlocks key decOff n (chunk.drop 1024)

/-- One call of `EntryReader::read` that returned the ciphertext `chunk`,
with `off` the reader's entry offset before the call. -/
def entryReaderRead (key : List Nat) (off : Nat) (chunk : List Nat) :
    List Nat :=
  readDecodeBlocks key (off % 1024) (chunk.length / 1024) chunk

/-- A sequence of `EntryReader::read` calls; `self.offset` advances by the
length of each chunk. -/
def entryReaderReads (key : List Nat) (off : Nat) :
    List (List Nat) → List Nat
  | [] => []
  | c :: cs => entryReaderRead key off c ++ entryReaderReads key (off + c.length) cs

/-- The decoding the claim describes: the byte at entry position `p` is
decoded with key byte `K[p % |K|]`. -/
def claimDecode_go (key : List Nat) (p : Nat) : List Nat → List Nat
  | [] => []
  | b :: r =>
      decode_byte b (key.getD (p % key.length) 0) :: claimDecode_go key (p + 1) r

set_option maxRecDepth 100000 in
/-- Claim C4 counterexample: with the key derived from filename `"aaa"`
(length 3, not a divisor of 1024) and a single 1025-byte read of zero
ciphertext, the byte at entry position 1024 is decoded with key byte
`K[0]` (the per-read block loop restarts the key index at every 1024-byte
boundary), not with `K[1024 % 3] = K[1]` as the claim states. -/
theorem c4_counterexample :
    ¬ ((entryReaderReads (gen_key [0x61, 0x61, 0x61]) 0
          [List.replicate 1025 0]).getD 1024 0 =
        decode_byte ((List.replicate 1025 (0 : Nat)).getD 1024 0)
          ((gen_key [0x61, 0x61, 0x61]).getD
            (1024 % (gen_key [0x61, 0x61, 0x61]).length) 0)) := by
  decide

theorem decode_data_go_length (key : List Nat) (offset i : Nat)
    (data : List Nat) :
    (decode_data_go key offset i data).length = data.length := by
  induction data generalizing i with
  | nil => rfl
  | cons b r ih => simp [decode_data_go, ih]

theorem readDecodeBlocks_length (key : List Nat) (decOff n : Nat)
    (chunk : List Nat) :
    (readDecodeBlocks key decOff n chunk).length = chunk.length := by
  induction n generalizing chunk with
  | zero => simp [readDecodeBlocks, decode_data, decode_data_go_length]
  | succ n ih =>
      simp only [readDecodeBlocks, List.length_append, decode_data,
        decode_data_go_length, ih, List.length_take, List.length_drop]
      omega

theorem readDecodeBlocks_nil (key : List Nat) (decOff n : Nat) :
    readDecodeBlocks key decOff n [] = [] := by
  induction n with
  | zero => rfl
  | succ n ih => simp [readDecodeBlocks, decode_data, decode_data_go, ih]

theorem decode_data_go_eq_claim (key : List Nat) (data : List Nat) :
    ∀ i off p, (i + off) % key.length = p % key.length →
      decode_data_go key off i data = claimDecode_go key p data := by
  induction data with
  | nil => intro i off p _; rfl
  | cons b r ih =>
      intro i off p h
      simp only [decode_data_go, claimDecode_go, h]
      refine congrArg _ (ih (i + 1) off (p + 1) ?_)
      have h1 : (i + off + 1) % key.length = (p + 1) % key.length :=
        Nat.ModEq.add_right 1 h
      simpa [Nat.add_right_comm] using h1

theorem claimDecode_go_append (key : List Nat) (a b : List Nat) :
    ∀ p, claimDecode_go key p (a ++ b) =
      claimDecode_go key p a ++ claimDecode_go key (p + a.length) b := by
  induction a with
  | nil => intro p; simp [claimDecode_go]
  | cons x r ih =>
      intro p
      simp only [List.cons_append, claimDecode_go, List.append_eq,
        List.length_cons]
      rw [ih (p + 1)]
      have h2 : p + (r.length + 1) = p + 1 + r.length := by omega
      rw [h2]

theorem readDecodeBlocks_eq_claim (key : List Nat) (hdvd : key.length ∣ 1024)
    (n : Nat) :
    ∀ off chunk, readDecodeBlocks key (off % 1024) n chunk =
      claimDecode_go key off chunk := by
  induction n with
  | zero =>
      intro off chunk
      exact decode_data_go_eq_claim key chunk 0 (off % 1024) off
        (by simpa using Nat.mod_mod_of_dvd off hdvd)
  | succ n ih =>
      intro off chunk
      by_cases hlen : 1024 ≤ chunk.length
      · have htake : (chunk.take 1024).length = 1024 := by
          simp [List.length_take]; omega
        have h1 : decode_data (chunk.take 1024) key (off % 1024) =
            claimDecode_go key off (chunk.take 1024) :=
          decode_data_go_eq_claim key (chunk.take 1024) 0 (off % 1024) off
            (by simpa using Nat.mod_mod_of_dvd off hdvd)
        have h2 : readDecodeBlocks key (off % 1024) n (chunk.drop 1024) =
            claimDecode_go key (off + 1024) (chunk.drop 1024) := by
          have := ih (off + 1024) (chunk.drop 1024)
          rwa [Nat.add_mod_right] at this
        calc readDecodeBlocks key (off % 1024) (n + 1) chunk
            = claimDecode_go key off (chunk.take 1024) ++
                claimDecode_go key (off + 1024) (chunk.drop 1024) := by
              rw [readDecodeBlocks, h1, h2]
          _ = claimDecode_go key off (chunk.take 1024 ++ chunk.drop 1024) := by
              rw [claimDecode_go_append, htake]
          _ = claimDecode_go key off chunk := by rw [List.take_append_drop]
      · have hdrop : chunk.drop 1024 = [] :=
          List.drop_eq_nil_of_le (by omega)
        have htake : chunk.take 1024 = chunk :=
          List.take_of_length_le (by omega)
        rw [readDecodeBlocks, hdrop, readDecodeBlocks_nil, htake,
          List.append_nil]
        exact decode_data_go_eq_claim key chunk 0 (off % 1024) off
          (by simpa using Nat.mod_mod_of_dvd off hdvd)

/-- Claim C4 (amended): producing `n` decoded bytes consumes exactly `n`
ciphertext bytes and advances the entry offset by `n`; and whenever the
length of the derived key divides 1024, the decoder applies key byte
`K[p % |K|]` at every payload position `p`, independently of how the reads
are chunked.  For other key lengths the key index restarts at the read's
base offset modulo 1024 at every 1024-byte block boundary of the read
buffer, so the applied key byte depends on the chunking (see the
counterexample). -/
theorem c4_amended (key : List Nat) (hdvd : key.length ∣ 1024) :
    (∀ off chunk, (entryReaderRead key off chunk).length = chunk.length) ∧
    ∀ chunks off, entryReaderReads key off chunks =
      claimDecode_go key off chunks.flatten := by
  constructor
  · intro off chunk
    exact readDecodeBlocks_length ..
  · intro chunks
    induction chunks with
    | nil => intro off; rfl
    | cons c cs ih =>
        intro off
        rw [entryReaderReads, entryReaderRead,
          readDecodeBlocks_eq_claim key hdvd _ off c, ih (off + c.length),
          List.flatten_cons, claimDecode_go_append]

/-- Claim C4 witness: the single-byte key `[0x6B]` (length 1 divides 1024)
decodes the two-chunk ciphertext `[0x5D], [0x5D]` exactly as the claimed
per-position rule does. -/
theorem c4_witness :
    ([0x6B] : List Nat).length ∣ 1024 ∧
      entryReaderReads [0x6B] 0 [[0x5D], [0x5D]] =
        claimDecode_go [0x6B] 0 ([[0x5D], [0x5D]] : List (List Nat)).flatten :=
  ⟨by decide, (c4_amended [0x6B] (by decide)).2 [[0x5D], [0x5D]] 0⟩

/-! ## `find_needle` (`src/util.rs`)

The Rust function keeps a 4096-byte buffer that is **zero-initialised**
(`let mut buffer = [0; BUF_SIZE]`), starts with `n = overlap =
needle.len() - 1` bytes of that zero prefix as carry, reads into
`buffer[n..]`, searches `buffer[..n]`, and on a hit returns
`offset + pos - overlap` computed in `u64`.  Reads are modelled as full
reads from the byte list `stream` (a well-behaved reader that returns as
many bytes as are available).  The returned offset is modelled as `Int`:
when `pos < overlap` the `u64` subtraction underflows, which panics in a
debug build and wraps to a huge value in a release build; the model shows
this as a negative result. -/

/-- Leftmost occurrence of `needle` in `l` (what `memmem::Finder::find`
returns), as an index. -/
def listFindGo (needle : List Nat) (i : Nat) : List Nat → Option Nat
  | [] => if needle.isEmpty then some i else none
  | b :: rest =>
      if needle.isPrefixOf (b :: rest) then some i
      else listFindGo needle (i + 1) rest

def listFind (l needle : List Nat) : Option Nat := listFindGo needle 0 l

inductive FindResult where
  | found (off : Int)
  | notFound

deriving instance DecidableEq for FindResult

def find_needle_go (needle : List Nat) : Nat → List Nat → Nat → List Nat →
    FindResult
  | 0, _, _, _ => .notFound
  | fuel + 1, buffer, offset, remaining =>
      let chunk := remaining.take (4096 - buffer.length)
      if chunk.length = 0 then .notFound
      else
        let buf := buffer ++ chunk
        let rest := remaining.drop (4096 - buffer.length)
        if buf.length < needle.length then
          find_needle_go needle fuel buf offset rest
        else
          match listFind buf needle with
          | some pos =>
              .found ((offset : Int) + pos - (needle.length - 1))
          | none =>
              find_needle_go needle fuel
                (buf.drop (buf.length - (needle.length - 1)))
                (offset + buf.length - (needle.length - 1)) rest

/-- `find_needle(reader, needle)`: the initial carry is `needle.len() - 1`
bytes of the zero-initialised buffer. -/
def find_needle (stream needle : List Nat) : FindResult :=
  find_needle_go needle (stream.length + 1)
    (List.replicate (needle.length - 1) 0) 0 stream

/-- Claim C5 evaluation at the failing input: for stream `[0x05]` and
needle `[0x00, 0x05]` the claim requires `None` (the needle does not occur
in the stream), but the code matches the needle against the
zero-initialised carry byte plus the real data and computes
`offset + pos - overlap = 0 + 0 - 1`, which underflows `u64` (panic in a
debug build, `0xFFFF_FFFF_FFFF_FFFF` in release); the model reports the
underflowed value `-1`. -/
theorem c5_code_bug_eval :
    find_needle [0x05] [0x00, 0x05] = .found (-1) ∧
      listFind [0x05] [0x00, 0x05] = none := by
  constructor
  · decide
  · decide

/-! ## InstallShield table (`src/setup/is.rs`)

`IsHeader` is `repr(C, packed)` with fields
`signature: [u8; 14], num_files: u16, ty: u32, x4: [u8; 8], x5: u16,
x6: [u8; 16]`, hence 46 bytes.  `IsFileAttributes` is `repr(C, packed)`
with fields `file_name: [u8; 260], encoded_flags: u32, x3: u32,
file_len: u32, x5: [u8; 8], is_unicode_launcher: u16, x7: [u8; 30]`,
hence `mem::size_of` is `260+4+4+4+8+2+30`.  `entries` seeks to
`hdr_offset + size_of::<IsHeader>()`, reads one packed record per file and
then seeks forward by `file_len`; `entry_reader` positions at
`entry.offset + size_of::<IsFileAttributes>()`. -/

def isHeaderSize : Nat := 14 + 2 + 4 + 8 + 2 + 16

def isFileAttributesSize : Nat := 260 + 4 + 4 + 4 + 8 + 2 + 30

structure IsFileAttributes where
  file_name : List Nat
  encoded_flags : Nat
  x3 : Nat
  file_len : Nat
  x5 : List Nat
  is_unicode_launcher : Nat
  x7 : List Nat

deriving instance DecidableEq for IsFileAttributes

/-- Little-endian value of a byte list. -/
def leValue : List Nat → Nat
  | [] => 0
  | b :: r => b + 256 * leValue r

/-- Reading one packed `IsFileAttributes` record
(`read_exact(bytes_of_mut(&mut attr))`): consume exactly
`size_of::<IsFileAttributes>()` bytes and reinterpret the fields at their
packed offsets. -/
def parseIsFileAttributes (l : List Nat) :
    Option (IsFileAttributes × List Nat) :=
  if isFileAttributesSize ≤ l.length then
    some ({ file_name := l.take 260,
            encoded_flags := leValue ((l.drop 260).take 4),
            x3 := leValue ((l.drop 264).take 4),
            file_len := leValue ((l.drop 268).take 4),
            x5 := (l.drop 272).take 8,
            is_unicode_launcher := leValue ((l.drop 280).take 2),
            x7 := (l.drop 282).take 30 },
          l.drop isFileAttributesSize)
  else none

structure IsEntryM where
  attr : IsFileAttributes
  offset : Nat

deriving instance DecidableEq for IsEntryM

/-- The record-enumeration loop of `IsSetup::entries`: read a record at
`offset`, remember the record's start offset, then skip `file_len` payload
bytes. -/
def isEntriesGo (stream : List Nat) : Nat → Nat → Option (List IsEntryM)
  | 0, _ => some []
  | n + 1, offset =>
      match parseIsFileAttributes (stream.drop offset) with
      | none => none
      | some (attr, _) =>
          (isEntriesGo stream n (offset + isFileAttributesSize + attr.file_len)).map
            (fun rest => { attr := attr, offset := offset } :: rest)

/-- `IsSetup::entries` starting after the 46-byte header. -/
def isEntries (stream : List Nat) (hdrOffset numFiles : Nat) :
    Option (List IsEntryM) :=
  isEntriesGo stream numFiles (hdrOffset + isHeaderSize)

/-- `IsSetup::entry_reader` seeks to
`entry.offset + size_of::<IsFileAttributes>()`. -/
def isEntryReaderStart (e : IsEntryM) : Nat :=
  e.offset + isFileAttributesSize

/-- The `file_len` payload bytes served by the entry reader (before
de-obfuscation). -/
def isEntryPayload (stream : List Nat) (e : IsEntryM) : List Nat :=
  (stream.drop (isEntryReaderStart e)).take e.attr.file_len

def isSignature : List Nat :=
  [0x49, 0x6E, 0x73, 0x74, 0x61, 0x6C, 0x6C, 0x53, 0x68, 0x69, 0x65, 0x6C,
   0x64, 0]

/-- A one-entry InstallShield stream: 46-byte header (`num_files = 1`),
one packed record whose `file_len` is 1, then the single payload byte
`0x42`. -/
def c8Stream : List Nat :=
  isSignature ++ [1, 0] ++ List.replicate 30 0 ++
    (0x41 :: List.replicate 259 0) ++ List.replicate 8 0 ++ [1, 0, 0, 0] ++
    List.replicate 8 0 ++ [0, 0] ++ List.replicate 30 0 ++ [0x42]

set_option maxRecDepth 10000 in
/-- Claim C8 counterexample: on a concrete one-entry stream the payload
starts `312` bytes after the record start (at absolute offset `46 + 312 =
358`, where the payload byte `0x42` indeed sits), not `328` bytes after it
as the claim states; the listed fields sum to `312`. -/
theorem c8_counterexample :
    (isEntries c8Stream 0 1).map (fun es => es.map isEntryReaderStart) =
        some [358] ∧
      (isEntries c8Stream 0 1).map
          (fun es => es.map (isEntryPayload c8Stream)) = some [[0x42]] ∧
      ¬ (isFileAttributesSize = 328) := by
  refine ⟨by decide, by decide, by decide⟩

/-- The little-endian byte serialisation of a `u16` value. -/
def u16le (v : Nat) : List Nat := [v &&& 0xFF, (v >>> 8) &&& 0xFF]

/-- The packed serialisation of an `IsFileAttributes` record, fields in
declaration order. -/
def renderIsFileAttributes (a : IsFileAttributes) : List Nat :=
  a.file_name ++ u32le a.encoded_flags ++ u32le a.x3 ++ u32le a.file_len ++
    a.x5 ++ u16le a.is_unicode_launcher ++ a.x7

/-- Well-formedness of an abstract record: array fields have their declared
packed sizes and integer fields fit their machine types. -/
def IsFileAttributes.WF (a : IsFileAttributes) : Prop :=
  a.file_name.length = 260 ∧ a.x5.length = 8 ∧ a.x7.length = 30 ∧
    a.encoded_flags < 2 ^ 32 ∧ a.x3 < 2 ^ 32 ∧ a.file_len < 2 ^ 32 ∧
    a.is_unicode_launcher < 2 ^ 16

theorem leValue_u32le (v : Nat) (hv : v < 2 ^ 32) : leValue (u32le v) = v := by
  simp only [u32le, leValue, and_255_eq_mod, shiftRight_eq_div]
  norm_num
  omega

theorem leValue_u16le (v : Nat) (hv : v < 2 ^ 16) : leValue (u16le v) = v := by
  simp only [u16le, leValue, and_255_eq_mod, shiftRight_eq_div]
  norm_num
  omega

theorem parse_renderIsFileAttributes (a : IsFileAttributes) (rest : List Nat)
    (h : a.WF) :
    parseIsFileAttributes (renderIsFileAttributes a ++ rest) =
      some (a, rest) := by
  obtain ⟨h1, h2, h3, h4, h5, h6, h7⟩ := h
  have e0 : renderIsFileAttributes a ++ rest =
      a.file_name ++ (u32le a.encoded_flags ++ (u32le a.x3 ++
        (u32le a.file_len ++ (a.x5 ++ (u16le a.is_unicode_launcher ++
          (a.x7 ++ rest)))))) := by
    simp [renderIsFileAttributes, List.append_assoc]
  have d260 : (renderIsFileAttributes a ++ rest).drop 260 = u32le a.encoded_flags ++ (u32le a.x3 ++
      (u32le a.file_len ++ (a.x5 ++ (u16le a.is_unicode_launcher ++
        (a.x7 ++ rest))))) := by
    rw [e0]; exact List.drop_left' h1
  have t260 : (renderIsFileAttributes a ++ rest).take 260 = a.file_name := by
    rw [e0]; exact List.take_left' h1
  have d264 : (renderIsFileAttributes a ++ rest).drop 264 = u32le a.x3 ++ (u32le a.file_len ++ (a.x5 ++
      (u16le a.is_unicode_launcher ++ (a.x7 ++ rest)))) := by
    rw [show (264 : Nat) = 260 + 4 from rfl, ← List.drop_drop, d260]
    exact List.drop_left' rfl
  have d268 : (renderIsFileAttributes a ++ rest).drop 268 = u32le a.file_len ++ (a.x5 ++
      (u16le a.is_unicode_launcher ++ (a.x7 ++ rest))) := by
    rw [show (268 : Nat) = 264 + 4 from rfl, ← List.drop_drop, d264]
    exact List.drop_left' rfl
  have d272 : (renderIsFileAttributes a ++ rest).drop 272 = a.x5 ++
      (u16le a.is_unicode_launcher ++ (a.x7 ++ rest)) := by
    rw [show (272 : Nat) = 268 + 4 from rfl, ← List.drop_drop, d268]
    exact List.drop_left' rfl
  have d280 : (renderIsFileAttributes a ++ rest).drop 280 = u16le a.is_unicode_launcher ++ (a.x7 ++ rest) := by
    rw [show (280 : Nat) = 272 + 8 from rfl, ← List.drop_drop, d272]
    exact List.drop_left' h2
  have d282 : (renderIsFileAttributes a ++ rest).drop 282 = a.x7 ++ rest := by
    rw [show (282 : Nat) = 280 + 2 from rfl, ← List.drop_drop, d280]
    exact List.drop_left' rfl
  have d312 : (renderIsFileAttributes a ++ rest).drop isFileAttributesSize = rest := by
    rw [show isFileAttributesSize = 282 + 30 from rfl, ← List.drop_drop, d282]
    exact List.drop_left' h3
  have hlen : isFileAttributesSize ≤ (renderIsFileAttributes a ++ rest).length := by
    simp only [List.length_append, renderIsFileAttributes, u32le, u16le,
      isFileAttributesSize, List.length_cons, List.length_nil]
    omega
  rw [parseIsFileAttributes, if_pos hlen, t260, d260, d264, d268, d272,
    d280, d282, d312]
  rw [List.take_left' (by simp [u32le] : (u32le a.encoded_flags).length = 4),
    List.take_left' (by simp [u32le] : (u32le a.x3).length = 4),
    List.take_left' (by simp [u32le] : (u32le a.file_len).length = 4),
    List.take_left' h2,
    List.take_left' (by simp [u16le] : (u16le a.is_unicode_launcher).length = 2),
    List.take_left' h3,
    leValue_u32le _ h4, leValue_u32le _ h5, leValue_u32le _ h6,
    leValue_u16le _ h7]

theorem isEntriesGo_offsets (stream : List Nat) :
    ∀ n offset es, isEntriesGo stream n offset = some es →
      (∀ e, es.head? = some e → e.offset = offset) ∧
        es.Chain' (fun e e2 =>
          e2.offset = e.offset + isFileAttributesSize + e.attr.file_len) := by
  intro n
  induction n with
  | zero =>
      intro offset es h
      rw [isEntriesGo] at h
      cases h
      exact ⟨fun e he => (nomatch he), List.chain'_nil⟩
  | succ n ih =>
      intro offset es h
      rw [isEntriesGo] at h
      cases hp : parseIsFileAttributes (stream.drop offset) with
      | none => simp [hp] at h
      | some pr =>
          obtain ⟨attr, rest0⟩ := pr
          cases hrec : isEntriesGo stream n
              (offset + isFileAttributesSize + attr.file_len) with
          | none => simp [hp, hrec] at h
          | some tail =>
              simp only [hp, hrec, Option.map_some', Option.some.injEq] at h
              obtain ⟨hhead, hchain⟩ := ih _ _ hrec
              subst h
              refine ⟨fun e he => ?_, ?_⟩
              · simp only [List.head?_cons, Option.some.injEq] at he
                rw [← he]
              · rw [List.chain'_cons']
                refine ⟨fun y hy => ?_, hchain⟩
                rw [hhead y (Option.mem_def.mp hy)]

/-- Claim C8 (amended): each InstallShield entry record preceding a payload
is a packed **312**-byte structure with the listed fields at their packed
offsets (`file_name [u8;260]`, `encoded_flags u32`, an opaque `u32`,
`file_len u32`, 8 opaque bytes, `is_unicode_launcher u16`, 30 opaque
bytes): parsing inverts the packed field serialisation consuming exactly
`isFileAttributesSize` bytes, and both entry enumeration and
`entry_reader` advance by exactly that record size (312, not 328) from the
record start to the payload start, enumeration additionally skipping the
`file_len` payload bytes. -/
theorem c8_amended (stream : List Nat) (hdrOffset numFiles : Nat)
    (es : List IsEntryM)
    (hes : isEntries stream hdrOffset numFiles = some es) :
    isFileAttributesSize = 312 ∧
    (∀ a rest, IsFileAttributes.WF a →
      parseIsFileAttributes (renderIsFileAttributes a ++ rest) =
        some (a, rest)) ∧
    (∀ e ∈ es, isEntryReaderStart e = e.offset + 312) ∧
    (∀ e, es.head? = some e → e.offset = hdrOffset + isHeaderSize) ∧
    es.Chain' (fun e e2 =>
      e2.offset = e.offset + 312 + e.attr.file_len) := by
  obtain ⟨hhead, hchain⟩ := isEntriesGo_offsets stream numFiles _ es hes
  exact ⟨rfl, fun a rest hwf => parse_renderIsFileAttributes a rest hwf,
    fun e _ => rfl, hhead, hchain⟩

def c8Attr : IsFileAttributes :=
  { file_name := 0x41 :: List.replicate 259 0, encoded_flags := 0, x3 := 0,
    file_len := 1, x5 := List.replicate 8 0, is_unicode_launcher := 0,
    x7 := List.replicate 30 0 }

set_option maxRecDepth 10000 in
/-- Claim C8 witness: the amended theorem applied to the concrete
one-entry stream. -/
theorem c8_witness :
    isEntries c8Stream 0 1 = some [{ attr := c8Attr, offset := 46 }] ∧
      List.Chain' (fun e e2 : IsEntryM =>
          e2.offset = e.offset + 312 + e.attr.file_len)
        [{ attr := c8Attr, offset := 46 }] :=
  ⟨by decide, (c8_amended c8Stream 0 1 _ (by decide)).2.2.2.2⟩

/-! ## WzPatch record stream (`src/patch.rs`, `WzPatchStream::process`)

`WzPatchFilePath::read` consumes bytes until it reads a terminator in
`{0, 1, 2}`; the terminator doubles as the op byte, so the
`NoVariantMatch` arm of `WzPatchFile::read_options` is unreachable.
`WzPatchStream::process` matches the result of `WzPatchFile::read_le` and
**breaks out of the loop on any error** (`Err(_e) => break`, annotated
`//TODO handle only eof`), returning `Ok`; errors from the `Modify` block
program (`process_blocks`) and from the handler propagate with `?`.
The model emits the visitor callbacks as a list of events; the bounded
`WzPatchDataStream` payloads appear as the byte lists handed to the
handler, and `data.clear()` drains up to `len` bytes of the stream
(`Take` plus `io::copy`, which does not fail at end of stream). -/

inductive WzPatchOp where
  | AddFile (len checksum : Nat)
  | RemoveFile
  | ModifyFile (old_checksum new_checksum : Nat)

deriving instance DecidableEq for WzPatchOp

/-- `WzPatchFilePath::read`: collect bytes until one of `0`, `1`, `2`;
return the path, the terminator byte, and the remaining stream.  `none`
models the `read_exact` error when the stream ends first. -/
def readPatchPath : List Nat → Option (List Nat × Nat × List Nat)
  | [] => none
  | b :: r =>
      if b = 0 ∨ b = 1 ∨ b = 2 then some ([], b, r)
      else (readPatchPath r).map (fun x => (b :: x.1, x.2.1, x.2.2))

/-- `WzPatchFile::read_options`: path, then the op-specific fixed tail. -/
def WzPatchFile.read_options (l : List Nat) :
    Option ((List Nat × WzPatchOp) × List Nat) :=
  match readPatchPath l with
  | none => none
  | some (path, op, rest) =>
    if op = 0 then
      match readU32LE rest with
      | none => none
      | some (len, r2) =>
        match readU32LE r2 with
        | none => none
        | some (crc, r3) => some ((path, .AddFile len crc), r3)
    else if op = 1 then
      match readU32LE rest with
      | none => none
      | some (oc, r2) =>
        match readU32LE r2 with
        | none => none
        | some (nc, r3) => some ((path, .ModifyFile oc nc), r3)
    else some ((path, .RemoveFile), rest)

inductive WzPatchEvent where
  | Add (path : List Nat) (len crc : Nat) (data : List Nat)
  | Remove (path : List Nat)
  | Modify (path : List Nat) (oldCrc newCrc : Nat)
  | ModRepeat (byte len : Nat)
  | ModNewBlock (data : List Nat)
  | ModOldBlock (offset len : Nat)
  | ModEnd (crc : Nat)

deriving instance DecidableEq for WzPatchEvent

inductive StreamErr where
  | badBlock

deriving instance DecidableEq for StreamErr

/-- `WzPatchStream::process_blocks`: read blocks until `End`; a failed
block read is a fatal error (`?`).  `fuel` only bounds the recursion; with
`fuel = l.length + 1` it never runs out because every iteration consumes
at least four bytes. -/
def process_blocks (acc : List WzPatchEvent) :
    Nat → List Nat → Except StreamErr (List WzPatchEvent × List Nat)
  | 0, _ => .error .badBlock
  | fuel + 1, l =>
    match WzPatchBlock.read_options l with
    | none => .error .badBlock
    | some (.End, rest) => .ok (acc, rest)
    | some (.NewBlock len, rest) =>
        process_blocks (acc ++ [.ModNewBlock (rest.take len)]) fuel
          (rest.drop len)
    | some (.OldBlock len offset, rest) =>
        process_blocks (acc ++ [.ModOldBlock offset len]) fuel rest
    | some (.Repeat b len, rest) =>
        process_blocks (acc ++ [.ModRepeat b len]) fuel rest

/-- The record loop of `WzPatchStream::process`: any failure of
`WzPatchFile::read_options` ends the loop gracefully with `Ok`; block
program failures propagate. -/
def processGo (acc : List WzPatchEvent) :
    Nat → List Nat → Except StreamErr (List WzPatchEvent)
  | 0, _ => .ok acc
  | fuel + 1, l =>
    match WzPatchFile.read_options l with
    | none => .ok acc
    | some ((path, .AddFile len crc), rest) =>
        processGo (acc ++ [.Add path len crc (rest.take len)]) fuel
          (rest.drop len)
    | some ((path, .RemoveFile), rest) =>
        processGo (acc ++ [.Remove path]) fuel rest
    | some ((path, .ModifyFile oc nc), rest) =>
        match process_blocks (acc ++ [.Modify path oc nc])
            (rest.length + 1) rest with
        | .error e => .error e
        | .ok (acc2, rest2) => processGo (acc2 ++ [.ModEnd nc]) fuel rest2

/-- `WzPatchStream::process` over the decompressed command stream. -/
def WzPatchStream.process (l : List Nat) : Except StreamErr (List WzPatchEvent) :=
  processGo [] (l.length + 1) l

/-- Claim C7 counterexample: the 1-byte stream `[0x41]` ends inside a
partially read record (mid-path, no terminator byte); the claim says this
is fatal, but `process` returns `Ok` with no events because the loop
breaks on any record-read error. -/
theorem c7_counterexample : WzPatchStream.process [0x41] = .ok [] := rfl

/-- A path byte is none of the three record terminators. -/
def ValidPathByte (b : Nat) : Prop := b ≠ 0 ∧ b ≠ 1 ∧ b ≠ 2

theorem readPatchPath_none (p : List Nat) (hp : ∀ b ∈ p, ValidPathByte b) :
    readPatchPath p = none := by
  induction p with
  | nil => rfl
  | cons b r ih =>
      obtain ⟨h0, h1, h2⟩ := hp b (List.mem_cons_self b r)
      rw [readPatchPath, if_neg (by tauto),
        ih (fun x hx => hp x (List.mem_cons_of_mem b hx))]
      rfl

theorem readPatchPath_append (p : List Nat) (hp : ∀ b ∈ p, ValidPathByte b)
    (op : Nat) (hop : op = 0 ∨ op = 1 ∨ op = 2) (r : List Nat) :
    readPatchPath (p ++ op :: r) = some (p, op, r) := by
  induction p with
  | nil => simp [readPatchPath, hop]
  | cons b t ih =>
      obtain ⟨h0, h1, h2⟩ := hp b (List.mem_cons_self b t)
      rw [List.cons_append, readPatchPath, if_neg (by tauto),
        ih (fun x hx => hp x (List.mem_cons_of_mem b hx))]
      rfl

theorem readU32LE_none (l : List Nat) (h : l.length < 4) :
    readU32LE l = none := by
  cases l with
  | nil => rfl
  | cons a t1 =>
      cases t1 with
      | nil => rfl
      | cons b t2 =>
          cases t2 with
          | nil => rfl
          | cons c t3 =>
              cases t3 with
              | nil => rfl
              | cons d t4 => simp at h; omega

theorem read_options_modify_short (p : List Nat)
    (hp : ∀ b ∈ p, ValidPathByte b) (t : List Nat) (ht : t.length < 8) :
    WzPatchFile.read_options (p ++ 1 :: t) = none := by
  rw [WzPatchFile.read_options, readPatchPath_append p hp 1 (by tauto) t]
  by_cases h4 : t.length < 4
  · simp [readU32LE_none t h4]
  · rcases t with _ | ⟨x0, _ | ⟨x1, _ | ⟨x2, _ | ⟨x3, t2⟩⟩⟩⟩
    · simp at h4
    · simp at h4
    · simp at h4
    · simp at h4
    · have ht2 : t2.length < 4 := by simp at ht; omega
      have h5 : readU32LE (x0 :: x1 :: x2 :: x3 :: t2) =
          some (x0 + 256 * x1 + 65536 * x2 + 16777216 * x3, t2) := rfl
      simp [h5, readU32LE_none t2 ht2]

theorem read_options_modify_full (p : List Nat)
    (hp : ∀ b ∈ p, ValidPathByte b) (a b : Nat) (ha : a < 2 ^ 32)
    (hb : b < 2 ^ 32) :
    WzPatchFile.read_options (p ++ 1 :: (u32le a ++ u32le b)) =
      some ((p, .ModifyFile a b), []) := by
  rw [WzPatchFile.read_options, readPatchPath_append p hp 1 (by tauto)]
  have hb2 : readU32LE (u32le b) = some (b, []) := by
    simpa using readU32LE_u32le b hb []
  simp [readU32LE_u32le a ha (u32le b), hb2]

/-- Claim C7 (amended): the record loop treats **any** failure to read the
next file record as end of input: end of stream at a record boundary, end
of stream mid-path, and end of stream inside the fixed tail after the op
byte all end parsing gracefully with `Ok` (the unreachable unknown-op arm
aside, since the path terminator is the op byte).  Errors inside a
`Modify` block program are fatal and propagate: a modify record whose
block program is immediately truncated makes `process` return an error. -/
theorem c7_amended :
    (∀ p, (∀ b ∈ p, ValidPathByte b) → WzPatchStream.process p = .ok []) ∧
    (∀ p t, (∀ b ∈ p, ValidPathByte b) → t.length < 8 →
      WzPatchStream.process (p ++ 1 :: t) = .ok []) ∧
    (∀ p a b, (∀ x ∈ p, ValidPathByte x) → a < 2 ^ 32 → b < 2 ^ 32 →
      WzPatchStream.process (p ++ 1 :: (u32le a ++ u32le b)) =
        .error .badBlock) := by
  refine ⟨fun p hp => ?_, fun p t hp ht => ?_, fun p a b hp ha hb => ?_⟩
  · rw [WzPatchStream.process, processGo, WzPatchFile.read_options,
      readPatchPath_none p hp]
  · rw [WzPatchStream.process, processGo, read_options_modify_short p hp t ht]
  · rw [WzPatchStream.process, processGo,
      read_options_modify_full p hp a b ha hb]
    rfl

/-- Claim C7 witness: the amended theorem applied to the path `[0x41]`
with a modify record whose block program is empty. -/
theorem c7_witness :
    (∀ b ∈ [0x41], ValidPathByte b) ∧
      WzPatchStream.process ([0x41] ++ 1 :: (u32le 0 ++ u32le 0)) =
        .error .badBlock := by
  refine ⟨by norm_num [ValidPathByte], ?_⟩
  exact c7_amended.2.2 [0x41] 0 0 (by norm_num [ValidPathByte]) (by norm_num)
    (by norm_num)

/-! ## NFO300 table parser (`src/setup/nfo300.rs`, `Nfo300Setup::entries`)

`entries` seeks to `nfo_offset`, wraps the reader in `take(1000)`, skips
one line with `read_line`, and then, while `fill_buf()?[0] == b'"'`, reads
a line, trims it, splits it at the first two commas, strips quotes from
the three fields and parses checksum and size as `i32`.  When the loop
leaves, `stream_position()` (the bytes consumed so far) becomes the first
entry's offset and subsequent offsets add `entry.size as u64` (an `i32`
sign-extended to `u64`).  `fill_buf()` on the exhausted `Take` (budget
spent) or at end of stream returns an empty slice, so the `[0]` index
panics; the model reports this as the distinguished error `panic`. -/

/-- `BufRead::read_line` through a `Take` with `limit` bytes left: consume
bytes up to and including the first `\n`, stopping early at the limit or
the end of the stream; returns the line and the rest. -/
def read_line_go : Nat → List Nat → List Nat × List Nat
  | 0, l => ([], l)
  | _ + 1, [] => ([], [])
  | lim + 1, b :: r =>
      if b = 10 then ([b], r)
      else
        let p := read_line_go lim r
        (b :: p.1, p.2)

/-- ASCII whitespace as recognised by `str::trim` (the model's inputs are
restricted to ASCII bytes). -/
def isWsByte (b : Nat) : Bool :=
  b == 9 || b == 10 || b == 11 || b == 12 || b == 13 || b == 32

/-- `str::trim`. -/
def trimBytes (l : List Nat) : List Nat :=
  ((l.dropWhile isWsByte).reverse.dropWhile isWsByte).reverse

/-- `str::split_once(sep)`. -/
def split_once (sep : Nat) : List Nat → Option (List Nat × List Nat)
  | [] => none
  | b :: r =>
      if b = sep then some ([], r)
      else (split_once sep r).map (fun p => (b :: p.1, p.2))

/-- `str::trim_matches(c)`: strip every leading and trailing `c`. -/
def trim_matches (c : Nat) (l : List Nat) : List Nat :=
  ((l.dropWhile (fun b => b == c)).reverse.dropWhile (fun b => b == c)).reverse

def digitsVal (l : List Nat) : Nat :=
  l.foldl (fun a c => a * 10 + (c - 48)) 0

/-- The optional leading sign of `i32::from_str`: the sign value and the
digit part. -/
def parseSign (s : List Nat) : Int × List Nat :=
  match s with
  | [] => (1, [])
  | b :: r => if b = 45 then (-1, r) else if b = 43 then (1, r) else (1, b :: r)

/-- `i32::from_str`: optional sign, one or more decimal digits, value in
the `i32` range (Rust reports out-of-range input as an overflow error;
the model accumulates exactly and range-checks, which accepts and rejects
the same strings). -/
def parseI32 (s : List Nat) : Option Int :=
  if (parseSign s).2.isEmpty then none
  else if (parseSign s).2.all (fun c => decide (48 ≤ c ∧ c ≤ 57)) then
    if -2 ^ 31 ≤ (parseSign s).1 * (digitsVal (parseSign s).2 : Int) ∧
        (parseSign s).1 * (digitsVal (parseSign s).2 : Int) < 2 ^ 31 then
      some ((parseSign s).1 * digitsVal (parseSign s).2)
    else none
  else none

inductive NfoErr where
  | panic
  | malformed

deriving instance DecidableEq for NfoErr

/-- The body of the entry loop applied to one line: trim, split at the
first comma into name and rest, split the rest at the next comma into
checksum and size, strip quotes, parse the two integers. -/
def parseEntryLine (line : List Nat) : Except NfoErr (List Nat × Int × Int) :=
  match split_once 44 (trimBytes line) with
  | none => .error .malformed
  | some (name, rest) =>
    match split_once 44 rest with
    | none => .error .malformed
    | some (checksum, size) =>
      match parseI32 (trim_matches 34 checksum),
          parseI32 (trim_matches 34 size) with
      | some c, some sz => .ok (trim_matches 34 name, c, sz)
      | some _, none => .error .malformed
      | none, _ => .error .malformed

/-- The `while limited.fill_buf()?[0] == b'"'` loop.  `limit` is what is
left of the 1000-byte `Take`; an exhausted take or end of stream makes
`fill_buf` return an empty slice and the `[0]` index panic.  `fuel` only
bounds the recursion; every iteration consumes at least one byte of
`limit`, so any `fuel > limit` behaves identically. -/
def entriesLoopGo :
    Nat → Nat → List Nat →
      Except NfoErr (List (List Nat × Int × Int) × Nat × List Nat)
  | 0, _, _ => .error .panic
  | _ + 1, 0, _ => .error .panic
  | _ + 1, _ + 1, [] => .error .panic
  | fuel + 1, lim + 1, b :: r =>
      if b = 34 then
        match parseEntryLine (read_line_go (lim + 1) (b :: r)).1 with
        | .error e => .error e
        | .ok row =>
          match entriesLoopGo fuel
              (lim + 1 - (read_line_go (lim + 1) (b :: r)).1.length)
              (read_line_go (lim + 1) (b :: r)).2 with
          | .error e => .error e
          | .ok (rows, lim2, rest2) => .ok (row :: rows, lim2, rest2)
      else .ok ([], lim + 1, b :: r)

/-- `i as u64` for an `i32` value: sign extension. -/
def u64OfI32 (i : Int) : Nat := (i % (2 ^ 64 : Int)).toNat

structure Nfo300Entry where
  name : List Nat
  size : Int
  checksum : Int
  offset : Nat

deriving instance DecidableEq for Nfo300Entry

/-- The offset-assignment loop after the parse loop:
`entry.offset = data_offset; data_offset += entry.size as u64` in `u64`
arithmetic. -/
def assignOffsets (start : Nat) :
    List (List Nat × Int × Int) → List Nfo300Entry
  | [] => []
  | (name, c, sz) :: r =>
      { name := name, size := sz, checksum := c, offset := start } ::
        assignOffsets ((start + u64OfI32 sz) % 2 ^ 64) r

/-- `Nfo300Setup::entries`: seek to `nfo_offset`, take 1000 bytes, skip the
`NFO300` line, run the entry loop, then assign contiguous offsets starting
at the reader's position (`nfo_offset` plus the consumed header bytes). -/
def nfo300Entries (stream : List Nat) (nfoOffset : Nat) :
    Except NfoErr (List Nfo300Entry) :=
  match entriesLoopGo 1001
      (1000 - (read_line_go 1000 (stream.drop nfoOffset)).1.length)
      (read_line_go 1000 (stream.drop nfoOffset)).2 with
  | .error e => .error e
  | .ok (rows, lim2, _) =>
      .ok (assignOffsets (nfoOffset + (1000 - lim2)) rows)

/-- An abstract well-formed table row: the three rendered fields, the line
terminator choice, and the two integer values the fields denote. -/
structure TableRow where
  name : List Nat
  cstr : List Nat
  sstr : List Nat
  crlf : Bool
  cval : Int
  sval : Int

/-- Bytes allowed in an entry name: ASCII, no quote, no comma, no
whitespace (so lines stay well-delimited and `trim` only strips the line
terminator). -/
def ValidNameByte (b : Nat) : Prop :=
  b < 128 ∧ b ≠ 34 ∧ b ≠ 44 ∧ isWsByte b = false

instance (b : Nat) : Decidable (ValidNameByte b) := by
  unfold ValidNameByte; infer_instance

/-- Well-formedness of a row: valid name bytes, both numeric fields parse
as `i32`, and the size is non-negative. -/
def TableRow.WF (r : TableRow) : Prop :=
  (∀ b ∈ r.name, ValidNameByte b) ∧ parseI32 r.cstr = some r.cval ∧
    parseI32 r.sstr = some r.sval ∧ 0 ≤ r.sval

instance (r : TableRow) : Decidable r.WF := by
  unfold TableRow.WF; infer_instance

def lineEnd (crlf : Bool) : List Nat := if crlf then [13, 10] else [10]

/-- The quoted comma-separated body of an entry line,
`"name","cstr","sstr"`. -/
def lineCore (r : TableRow) : List Nat :=
  (34 :: r.name ++ [34]) ++
    44 :: ((34 :: r.cstr ++ [34]) ++ 44 :: (34 :: r.sstr ++ [34]))

/-- One rendered entry line including its LF or CRLF terminator. -/
def renderLine (r : TableRow) : List Nat := lineCore r ++ lineEnd r.crlf

def rowsBytes (rows : List TableRow) : List Nat :=
  (rows.map renderLine).flatten

def rowsLen (rows : List TableRow) : Nat := (rowsBytes rows).length

def rowsData (rows : List TableRow) : List (List Nat × Int × Int) :=
  rows.map (fun r => (r.name, r.cval, r.sval))

theorem read_line_render (pre : List Nat) :
    ∀ lim rest, (∀ x ∈ pre, x ≠ 10) → pre.length < lim →
      read_line_go lim (pre ++ 10 :: rest) = (pre ++ [10], rest) := by
  induction pre with
  | nil =>
      intro lim rest _ hlim
      obtain ⟨l, rfl⟩ : ∃ l, lim = l + 1 := ⟨lim - 1, by omega⟩
      simp [read_line_go]
  | cons b t ih =>
      intro lim rest hmem hlim
      obtain ⟨l, rfl⟩ : ∃ l, lim = l + 1 := ⟨lim - 1, by omega⟩
      have hb : b ≠ 10 := hmem b (List.mem_cons_self b t)
      have ht : t.length < l := by simp at hlim; omega
      have h2 := ih l rest (fun x hx => hmem x (List.mem_cons_of_mem b hx)) ht
      simp [read_line_go, hb, h2]

theorem split_once_render (sep : Nat) (a : List Nat) :
    ∀ b, (∀ x ∈ a, x ≠ sep) → split_once sep (a ++ sep :: b) = some (a, b) := by
  induction a with
  | nil => intro b _; simp [split_once]
  | cons x t ih =>
      intro b hmem
      have hx : x ≠ sep := hmem x (List.mem_cons_self x t)
      have h2 := ih b (fun y hy => hmem y (List.mem_cons_of_mem x hy))
      simp [split_once, hx, h2]

theorem dropWhile_append_all (p : Nat → Bool) (a : List Nat) :
    ∀ b, (∀ x ∈ a, p x = true) → (a ++ b).dropWhile p = b.dropWhile p := by
  induction a with
  | nil => intro b _; rfl
  | cons x t ih =>
      intro b hmem
      rw [List.cons_append, List.dropWhile_cons,
        if_pos (hmem x (List.mem_cons_self x t))]
      exact ih b (fun y hy => hmem y (List.mem_cons_of_mem x hy))

theorem dropWhile_eq_self_of (p : Nat → Bool) (l : List Nat)
    (h : ∀ x ∈ l, p x = false) : l.dropWhile p = l := by
  cases l with
  | nil => rfl
  | cons b t =>
      rw [List.dropWhile_cons, if_neg]
      simp [h b (List.mem_cons_self b t)]

theorem trimBytes_render (mid e : List Nat) (hws : ∀ x ∈ e, isWsByte x = true) :
    trimBytes ((34 :: mid ++ [34]) ++ e) = 34 :: mid ++ [34] := by
  unfold trimBytes
  have h1 : ((34 :: mid ++ [34]) ++ e).dropWhile isWsByte =
      (34 :: mid ++ [34]) ++ e := by
    simp only [List.cons_append, List.append_assoc, List.dropWhile_cons]
    simp [isWsByte]
  rw [h1]
  have h2 : ((34 :: mid ++ [34]) ++ e).reverse =
      e.reverse ++ 34 :: (mid.reverse ++ [34]) := by
    simp [List.reverse_append, List.reverse_cons]
  rw [h2, dropWhile_append_all _ _ _ (by simpa using hws)]
  rw [List.dropWhile_cons]
  simp [isWsByte]

theorem trim_matches_render (name : List Nat)
    (h : ∀ x ∈ name, x ≠ 34) :
    trim_matches 34 (34 :: (name ++ [34])) = name := by
  unfold trim_matches
  rw [List.dropWhile_cons, if_pos (by simp)]
  cases name with
  | nil => rfl
  | cons n t =>
      rw [List.cons_append, List.dropWhile_cons,
        if_neg (by simp [h n (List.mem_cons_self n t)])]
      have h2 : ((n :: t) ++ [34]).reverse = 34 :: (n :: t).reverse := by
        simp
      rw [← List.cons_append, h2, List.dropWhile_cons, if_pos (by simp),
        dropWhile_eq_self_of _ _ (by
          intro x hx
          simp only [List.mem_reverse] at hx
          simp [h x hx]),
        List.reverse_reverse]

theorem parseI32_all (s : List Nat) (v : Int) (h : parseI32 s = some v) :
    (parseSign s).2.all (fun c => decide (48 ≤ c ∧ c ≤ 57)) = true := by
  unfold parseI32 at h
  by_cases h1 : (parseSign s).2.isEmpty = true
  · rw [if_pos h1] at h; exact absurd h (by simp)
  · rw [if_neg h1] at h
    by_cases h2 : (parseSign s).2.all (fun c => decide (48 ≤ c ∧ c ≤ 57)) = true
    · exact h2
    · rw [if_neg h2] at h; exact absurd h (by simp)

theorem parseI32_range (s : List Nat) (v : Int) (h : parseI32 s = some v) :
    -2 ^ 31 ≤ v ∧ v < 2 ^ 31 := by
  unfold parseI32 at h
  by_cases h1 : (parseSign s).2.isEmpty = true
  · rw [if_pos h1] at h; exact absurd h (by simp)
  · rw [if_neg h1] at h
    by_cases h2 : (parseSign s).2.all (fun c => decide (48 ≤ c ∧ c ≤ 57)) = true
    · rw [if_pos h2] at h
      by_cases h3 : -2 ^ 31 ≤ (parseSign s).1 * (digitsVal (parseSign s).2 : Int) ∧
          (parseSign s).1 * (digitsVal (parseSign s).2 : Int) < 2 ^ 31
      · rw [if_pos h3] at h
        cases h
        exact h3
      · rw [if_neg h3] at h; exact absurd h (by simp)
    · rw [if_neg h2] at h; exact absurd h (by simp)

theorem parseI32_bytes (s : List Nat) (v : Int) (h : parseI32 s = some v) :
    ∀ b ∈ s, b = 43 ∨ b = 45 ∨ (48 ≤ b ∧ b ≤ 57) := by
  have hall := parseI32_all s v h
  intro b hb
  cases s with
  | nil => cases hb
  | cons x t =>
      by_cases h45 : x = 45
      · have hps : (parseSign (x :: t)).2 = t := by simp [parseSign, h45]
        rw [hps] at hall
        rcases List.mem_cons.mp hb with rfl | hbt
        · exact Or.inr (Or.inl h45)
        · have := (List.all_eq_true.mp hall) b hbt
          right; right; exact of_decide_eq_true this
      · by_cases h43 : x = 43
        · have hps : (parseSign (x :: t)).2 = t := by
            simp [parseSign, h45, h43]
          rw [hps] at hall
          rcases List.mem_cons.mp hb with rfl | hbt
          · exact Or.inl h43
          · have := (List.all_eq_true.mp hall) b hbt
            right; right; exact of_decide_eq_true this
        · have hps : (parseSign (x :: t)).2 = x :: t := by
            simp [parseSign, h45, h43]
          rw [hps] at hall
          have := (List.all_eq_true.mp hall) b hb
          right; right; exact of_decide_eq_true this

theorem lineEnd_ws (c : Bool) : ∀ x ∈ lineEnd c, isWsByte x = true := by
  cases c <;> simp [lineEnd, isWsByte]

/-- A parse-accepted field byte is a sign or a digit, hence none of quote,
comma, newline, carriage return, and below 128. -/
theorem field_byte_facts (b : Nat)
    (h : b = 43 ∨ b = 45 ∨ (48 ≤ b ∧ b ≤ 57)) :
    b ≠ 34 ∧ b ≠ 44 ∧ b ≠ 10 ∧ isWsByte b = false := by
  rcases h with rfl | rfl | ⟨hlo, hhi⟩
  · exact ⟨by omega, by omega, by omega, by decide⟩
  · exact ⟨by omega, by omega, by omega, by decide⟩
  · refine ⟨by omega, by omega, by omega, ?_⟩
    simp only [isWsByte, Bool.or_eq_false_iff, beq_eq_false_iff_ne]
    omega

theorem parseEntryLine_render (r : TableRow) (hw : r.WF) :
    parseEntryLine (renderLine r) = .ok (r.name, r.cval, r.sval) := by
  obtain ⟨hname, hc, hs, _⟩ := hw
  have hcb := parseI32_bytes r.cstr r.cval hc
  have hsb := parseI32_bytes r.sstr r.sval hs
  have hcore : lineCore r =
      (34 :: (r.name ++ ([34, 44, 34] ++ (r.cstr ++ ([34, 44, 34] ++
        r.sstr)))) ++ [34]) := by
    simp [lineCore, List.append_assoc]
  have htrim : trimBytes (renderLine r) = lineCore r := by
    rw [renderLine, hcore]
    exact trimBytes_render _ _ (lineEnd_ws r.crlf)
  have hsplit1 : split_once 44 (lineCore r) =
      some ((34 :: r.name ++ [34]),
        ((34 :: r.cstr ++ [34]) ++ 44 :: (34 :: r.sstr ++ [34]))) := by
    rw [lineCore]
    refine split_once_render 44 _ _ ?_
    intro x hx
    rcases List.mem_append.mp hx with hx1 | hx2
    · rcases List.mem_cons.mp hx1 with rfl | hx1
      · omega
      · exact (hname x hx1).2.2.1
    · have := List.mem_singleton.mp hx2
      omega
  have hsplit2 : split_once 44
      ((34 :: r.cstr ++ [34]) ++ 44 :: (34 :: r.sstr ++ [34])) =
      some ((34 :: r.cstr ++ [34]), (34 :: r.sstr ++ [34])) := by
    refine split_once_render 44 _ _ ?_
    intro x hx
    rcases List.mem_append.mp hx with hx1 | hx2
    · rcases List.mem_cons.mp hx1 with rfl | hx1
      · omega
      · exact (field_byte_facts x (hcb x hx1)).2.1
    · have := List.mem_singleton.mp hx2
      omega
  have htm1 : trim_matches 34 (34 :: r.name ++ [34]) = r.name := by
    rw [List.cons_append]
    exact trim_matches_render _ (fun x hx => (hname x hx).2.1)
  have htm2 : trim_matches 34 (34 :: r.cstr ++ [34]) = r.cstr := by
    rw [List.cons_append]
    exact trim_matches_render _
      (fun x hx => (field_byte_facts x (hcb x hx)).1)
  have htm3 : trim_matches 34 (34 :: r.sstr ++ [34]) = r.sstr := by
    rw [List.cons_append]
    exact trim_matches_render _
      (fun x hx => (field_byte_facts x (hsb x hx)).1)
  simp only [parseEntryLine, htrim, hsplit1, hsplit2, htm1, htm2, htm3,
    hc, hs]

theorem read_line_go_pos (lim b : Nat) (r : List Nat) :
    0 < ((read_line_go (lim + 1) (b :: r)).1).length := by
  rw [read_line_go]
  split <;> simp

theorem entriesLoopGo_fuel (limit : Nat) :
    ∀ f1 f2 l, limit < f1 → limit < f2 →
      entriesLoopGo f1 limit l = entriesLoopGo f2 limit l := by
  induction limit using Nat.strong_induction_on with
  | _ limit ih =>
      intro f1 f2 l h1 h2
      obtain ⟨a, rfl⟩ : ∃ a, f1 = a + 1 := ⟨f1 - 1, by omega⟩
      obtain ⟨b, rfl⟩ : ∃ b, f2 = b + 1 := ⟨f2 - 1, by omega⟩
      cases limit with
      | zero => rfl
      | succ lim =>
          cases l with
          | nil => rfl
          | cons x r =>
              simp only [entriesLoopGo]
              by_cases hx : x = 34
              · simp only [if_pos hx]
                cases hpe :
                    parseEntryLine (read_line_go (lim + 1) (x :: r)).1 with
                | error e => rfl
                | ok row =>
                    have hpos := read_line_go_pos lim x r
                    rw [ih (lim + 1 - ((read_line_go (lim + 1) (x :: r)).1).length)
                      (by omega) a b ((read_line_go (lim + 1) (x :: r)).2)
                      (by omega) (by omega)]
              · simp only [if_neg hx]

/-- The pre-newline part of a rendered line. -/
def rlPre (r : TableRow) : List Nat :=
  lineCore r ++ (if r.crlf then [13] else [])

theorem rlPre_append (r : TableRow) (Y : List Nat) :
    renderLine r ++ Y = rlPre r ++ 10 :: Y := by
  cases hc : r.crlf <;>
    simp [renderLine, lineEnd, rlPre, hc, List.append_assoc]

theorem rlPre_nl (r : TableRow) : rlPre r ++ [10] = renderLine r := by
  cases hc : r.crlf <;>
    simp [renderLine, lineEnd, rlPre, hc, List.append_assoc]

theorem lineCore_mem (r : TableRow) (x : Nat) (hx : x ∈ lineCore r) :
    x = 34 ∨ x = 44 ∨ x ∈ r.name ∨ x ∈ r.cstr ∨ x ∈ r.sstr := by
  simp only [lineCore, List.mem_append, List.mem_cons, List.mem_singleton,
    List.not_mem_nil, or_false] at hx
  tauto

theorem rlPre_no10 (r : TableRow) (hw : r.WF) :
    ∀ x ∈ rlPre r, x ≠ 10 := by
  obtain ⟨hname, hc, hs, _⟩ := hw
  intro x hx
  rw [rlPre] at hx
  rcases List.mem_append.mp hx with hx1 | hx2
  · rcases lineCore_mem r x hx1 with rfl | rfl | hn | hcs | hss
    · omega
    · omega
    · intro h10
      have := (hname x hn).2.2.2
      subst h10
      simp [isWsByte] at this
    · exact (field_byte_facts x (parseI32_bytes r.cstr r.cval hc x hcs)).2.2.1
    · exact (field_byte_facts x (parseI32_bytes r.sstr r.sval hs x hss)).2.2.1
  · cases hcr : r.crlf
    · rw [hcr] at hx2; simp at hx2
    · rw [hcr] at hx2
      have hx13 : x = 13 := by simpa using hx2
      omega

theorem rlPre_length (r : TableRow) :
    (rlPre r).length + 1 = (renderLine r).length := by
  have := rlPre_nl r
  calc (rlPre r).length + 1 = (rlPre r ++ [10]).length := by simp
    _ = (renderLine r).length := by rw [this]

theorem renderLine_length_pos (r : TableRow) : 0 < (renderLine r).length := by
  have := rlPre_length r
  omega

theorem rowsLen_cons (r : TableRow) (rows : List TableRow) :
    rowsLen (r :: rows) = (renderLine r).length + rowsLen rows := by
  simp [rowsLen, rowsBytes]

theorem entriesLoopGo_step (f lim : Nat) (r : TableRow) (hw : r.WF)
    (Y : List Nat) (hlen : (renderLine r).length ≤ lim + 1) :
    entriesLoopGo (f + 1) (lim + 1) (renderLine r ++ Y) =
      match entriesLoopGo f (lim + 1 - (renderLine r).length) Y with
      | .error e => .error e
      | .ok (rows, lim2, rest2) =>
          .ok ((r.name, r.cval, r.sval) :: rows, lim2, rest2) := by
  obtain ⟨P, hP⟩ : ∃ P, rlPre r = 34 :: P := ⟨_, by rw [rlPre, lineCore]; rfl⟩
  have hrl := read_line_render (rlPre r) (lim + 1) Y (rlPre_no10 r hw)
    (by have := rlPre_length r; omega)
  rw [rlPre_append r Y, hP, List.cons_append]
  simp only [entriesLoopGo, if_true]
  rw [show (34 : Nat) :: (P ++ 10 :: Y) = rlPre r ++ 10 :: Y from by
    rw [hP, List.cons_append]]
  rw [hrl]
  dsimp only
  rw [rlPre_nl r, parseEntryLine_render r hw]

theorem entriesLoopGo_render (rows : List TableRow) :
    ∀ limit fuel rest, (∀ r ∈ rows, r.WF) → rowsLen rows ≤ limit →
      limit < fuel →
      entriesLoopGo fuel limit (rowsBytes rows ++ rest) =
        match entriesLoopGo (limit - rowsLen rows + 1) (limit - rowsLen rows)
            rest with
        | .error e => .error e
        | .ok (rs, lim2, rst) => .ok (rowsData rows ++ rs, lim2, rst) := by
  induction rows with
  | nil =>
      intro limit fuel rest _ _ hf
      rw [show rowsLen ([] : List TableRow) = 0 from rfl, Nat.sub_zero,
        show rowsBytes ([] : List TableRow) = [] from rfl, List.nil_append,
        entriesLoopGo_fuel limit fuel (limit + 1) rest hf (by omega)]
      cases h : entriesLoopGo (limit + 1) limit rest with
      | error e => rfl
      | ok tri =>
          obtain ⟨rs, lim2, rst⟩ := tri
          simp [rowsData]
  | cons r rows ih =>
      intro limit fuel rest hw hlen hf
      have hwr : r.WF := hw r (List.mem_cons_self r rows)
      have hwt : ∀ q ∈ rows, q.WF :=
        fun q hq => hw q (List.mem_cons_of_mem r hq)
      have hsum := rowsLen_cons r rows
      have hlpos := renderLine_length_pos r
      obtain ⟨lim, rfl⟩ : ∃ lim, limit = lim + 1 := ⟨limit - 1, by omega⟩
      obtain ⟨f, rfl⟩ : ∃ f, fuel = f + 1 := ⟨fuel - 1, by omega⟩
      rw [show rowsBytes (r :: rows) ++ rest =
          renderLine r ++ (rowsBytes rows ++ rest) from by
        simp [rowsBytes]]
      rw [entriesLoopGo_step f lim r hwr _ (by omega)]
      rw [ih (lim + 1 - (renderLine r).length) f rest hwt (by omega)
        (by omega)]
      rw [show lim + 1 - (renderLine r).length - rowsLen rows =
          lim + 1 - rowsLen (r :: rows) from by omega]
      cases hcont : entriesLoopGo (lim + 1 - rowsLen (r :: rows) + 1)
          (lim + 1 - rowsLen (r :: rows)) rest with
      | error e => rfl
      | ok tri =>
          obtain ⟨rs, lim2, rst⟩ := tri
          simp [rowsData]

/-- The entries the claim describes: names, checksums and sizes from the
table rows, offsets assigned contiguously from the payload start. -/
def expectedEntries (start : Nat) : List TableRow → List Nfo300Entry
  | [] => []
  | r :: rest =>
      { name := r.name, size := r.sval, checksum := r.cval,
        offset := start } :: expectedEntries (start + r.sval.toNat) rest

def sumSizes (rows : List TableRow) : Nat :=
  (rows.map (fun r => r.sval.toNat)).sum

theorem u64OfI32_nonneg (i : Int) (h0 : 0 ≤ i) (h1 : i < 2 ^ 64) :
    u64OfI32 i = i.toNat := by
  rw [u64OfI32, Int.emod_eq_of_lt h0 h1]

theorem assignOffsets_expected (rows : List TableRow) :
    ∀ start, (∀ r ∈ rows, r.WF) → start + sumSizes rows < 2 ^ 64 →
      assignOffsets start (rowsData rows) = expectedEntries start rows := by
  induction rows with
  | nil => intro start _ _; rfl
  | cons r rows ih =>
      intro start hw hof
      obtain ⟨_, _, hs, hpos⟩ := hw r (List.mem_cons_self r rows)
      have hrng := parseI32_range r.sstr r.sval hs
      have h64 : r.sval < 2 ^ 64 := lt_trans hrng.2 (by norm_num)
      have hsz : u64OfI32 r.sval = r.sval.toNat :=
        u64OfI32_nonneg r.sval hpos h64
      have hsumc : sumSizes (r :: rows) = r.sval.toNat + sumSizes rows := by
        simp [sumSizes]
      rw [show rowsData (r :: rows) =
          (r.name, r.cval, r.sval) :: rowsData rows from by simp [rowsData]]
      rw [assignOffsets, hsz, Nat.mod_eq_of_lt (by omega), expectedEntries]
      congr 1
      exact ih (start + r.sval.toNat)
        (fun q hq => hw q (List.mem_cons_of_mem r hq)) (by omega)

/-- Claim C6: for every well-formed NFO300 table, each entry line parses as
three quoted comma-separated fields with checksum and size parsed as
signed 32-bit decimals, and after the table (first byte not a quote) the
entry offsets are assigned contiguously from the reader's position:
`offset_0` is the payload start (`nfo_offset` plus the consumed header
bytes) and `offset_{i+1} = offset_i + size_i`. -/
theorem c6_nfo300_entries (pre nfoLine : List Nat) (rows : List TableRow)
    (b0 : Nat) (payload : List Nat)
    (hn : ∀ x ∈ nfoLine, x ≠ 10)
    (hw : ∀ r ∈ rows, r.WF)
    (hb0 : b0 ≠ 34)
    (hlen : nfoLine.length + 1 + rowsLen rows < 1000)
    (hof : pre.length + 1000 + sumSizes rows < 2 ^ 64) :
    nfo300Entries
        (pre ++ (nfoLine ++ 10 :: (rowsBytes rows ++ b0 :: payload)))
        pre.length =
      .ok (expectedEntries
        (pre.length + (nfoLine.length + 1 + rowsLen rows)) rows) := by
  unfold nfo300Entries
  rw [List.drop_left]
  rw [read_line_render nfoLine 1000 _ hn (by omega)]
  dsimp only
  have hlen10 : (nfoLine ++ [10]).length = nfoLine.length + 1 := by simp
  rw [hlen10]
  rw [entriesLoopGo_render rows (1000 - (nfoLine.length + 1)) 1001 _ hw
    (by omega) (by omega)]
  obtain ⟨k, hk⟩ : ∃ k,
      1000 - (nfoLine.length + 1) - rowsLen rows = k + 1 :=
    ⟨1000 - (nfoLine.length + 1) - rowsLen rows - 1, by omega⟩
  rw [hk]
  rw [show entriesLoopGo (k + 1 + 1) (k + 1) (b0 :: payload) =
      .ok ([], k + 1, b0 :: payload) from by
    simp only [entriesLoopGo, if_neg hb0]]
  dsimp only
  rw [List.append_nil]
  rw [show pre.length + (1000 - (k + 1)) =
      pre.length + (nfoLine.length + 1 + rowsLen rows) from by omega]
  rw [assignOffsets_expected rows _ hw (by omega)]

/-- Claim C10: when the NFO300 table region reaches end of stream, or
spends the whole 1000-byte budget, exactly when the parser is about to
test the first byte of the next line, `entries` panics (index out of
bounds on the empty `fill_buf` slice, the distinguished `panic` outcome of
the model) instead of returning an error value. -/
theorem c10_nfo300_panics (pre nfoLine : List Nat) (rows : List TableRow)
    (hn : ∀ x ∈ nfoLine, x ≠ 10) (hw : ∀ r ∈ rows, r.WF) :
    (nfoLine.length + 1 + rowsLen rows ≤ 1000 →
      nfo300Entries (pre ++ (nfoLine ++ 10 :: rowsBytes rows)) pre.length =
        .error .panic) ∧
    (∀ payload, nfoLine.length + 1 + rowsLen rows = 1000 →
      nfo300Entries (pre ++ (nfoLine ++ 10 :: (rowsBytes rows ++ payload)))
          pre.length = .error .panic) := by
  constructor
  · intro hlen
    unfold nfo300Entries
    rw [List.drop_left]
    rw [read_line_render nfoLine 1000 _ hn (by omega)]
    dsimp only
    have hlen10 : (nfoLine ++ [10]).length = nfoLine.length + 1 := by simp
    rw [hlen10]
    rw [show rowsBytes rows = rowsBytes rows ++ [] from (List.append_nil _).symm]
    rw [entriesLoopGo_render rows (1000 - (nfoLine.length + 1)) 1001 [] hw
      (by omega) (by omega)]
    cases hk : 1000 - (nfoLine.length + 1) - rowsLen rows with
    | zero => rfl
    | succ k => rfl
  · intro payload hlen
    unfold nfo300Entries
    rw [List.drop_left]
    rw [read_line_render nfoLine 1000 _ hn (by omega)]
    dsimp only
    have hlen10 : (nfoLine ++ [10]).length = nfoLine.length + 1 := by simp
    rw [hlen10]
    rw [entriesLoopGo_render rows (1000 - (nfoLine.length + 1)) 1001
      payload hw (by omega) (by omega)]
    rw [show 1000 - (nfoLine.length + 1) - rowsLen rows = 0 from by omega]
    rfl

/-- The two rows of the spec's S5 scenario: `"a.bin","0","4"` and
`"b.bin","0","6"` with LF terminators. -/
def s5Row1 : TableRow :=
  { name := [97, 46, 98, 105, 110], cstr := [48], sstr := [52],
    crlf := false, cval := 0, sval := 4 }

def s5Row2 : TableRow :=
  { name := [98, 46, 98, 105, 110], cstr := [48], sstr := [54],
    crlf := false, cval := 0, sval := 6 }

set_option maxRecDepth 10000 in
/-- Claim C6 witness: the theorem applied to the S5 scenario. -/
theorem c6_witness :
    (∀ r ∈ [s5Row1, s5Row2], r.WF) ∧
      nfo300Entries
          (([] : List Nat) ++ ([78, 70, 79, 51, 48, 48] ++ 10 ::
            (rowsBytes [s5Row1, s5Row2] ++ 88 :: [65, 65, 65]))) (0 : Nat) =
        .ok (expectedEntries (39 : Nat) [s5Row1, s5Row2]) := by
  refine ⟨by decide, ?_⟩
  have h := c6_nfo300_entries [] [78, 70, 79, 51, 48, 48] [s5Row1, s5Row2]
    88 [65, 65, 65] (by decide) (by decide) (by decide) (by decide)
    (by decide)
  simpa using h

set_option maxRecDepth 10000 in
/-- Claim C10 witness: the theorem applied to a stream that ends right
after the `NFO300` marker line. -/
theorem c10_witness :
    ([78, 70, 79, 51, 48, 48] : List Nat).length + 1 + rowsLen [] ≤ 1000 ∧
      nfo300Entries
          (([] : List Nat) ++ ([78, 70, 79, 51, 48, 48] ++ 10 ::
            rowsBytes [])) (0 : Nat) = .error .panic := by
  refine ⟨by decide, ?_⟩
  have h := (c10_nfo300_panics [] [78, 70, 79, 51, 48, 48] []
    (by decide) (by decide)).1 (by decide)
  simpa using h
